import Mathlib

/-!
Shallow embedding of the scats `Vector` implementations and proofs about them.

Two implementations are embedded from the source:
* the trie-based `Vector` (bit-partitioned 32-ary trie plus a tail buffer),
  in namespace `Scats`;
* the array-backed `Vector` (`src/vector/Vector.ts`), in namespace
  `Scats.ArrayVector`.

Modelling conventions:
* JS children arrays (`Array<A | Node<A>>`) are `List (Child α)`; an `arr[i]`
  read is `arr[i]?`, where `none` stands for a JS `undefined` read (which
  makes the surrounding trie walk crash).
* Operations that can throw, or that can fail to terminate, return `Option`;
  `none` models the thrown error, respectively stack exhaustion.  The only
  non-structural recursion in the source (`pushTail`, whose `level` argument
  can descend below its `level === 1` base case forever) is made total with an
  explicit fuel argument: `none` for every fuel value means the call never
  returns, which surfaces in JS as a `RangeError` stack overflow.
* Numbers the code shifts and masks are naturals with ECMAScript's 32-bit
  coercions written out (`toU32`, shift counts mod 32).  These coercions are
  the identity on all values the data-model invariant admits.
-/

namespace Scats

variable {α : Type}

/-- The number of bits used per level of the Vector trie (`BITS = 5`). -/
def BITS : Nat := 5

/-- The branching factor of the Vector trie (`WIDTH = 1 << BITS = 32`). -/
def WIDTH : Nat := 32

/-- The mask used to extract the index at a particular level (`MASK = 31`). -/
def MASK : Nat := 31

/-- One slot of a trie node's children array `Array<A | Node<A>>`: either a
stored value (leaf level) or a sub-node.  A source `Node<A>` consists of
nothing but its children array, so a node is its `List (Child α)`. -/
inductive Child (α : Type) where
  | val : α → Child α
  | sub : List (Child α) → Child α

/-- A trie node, identified with its children array. -/
abbrev Node (α : Type) := List (Child α)

/-- ECMAScript `ToUint32`. -/
def toU32 (x : Nat) : Nat := x % 4294967296

/-- JS `(x >> (level * BITS)) & MASK` on a nonnegative integer `x`: ECMAScript
takes shift counts modulo 32, and coerces `x` to 32 bits (the identity for
`x < 2 ^ 31`, which the data-model invariant guarantees). -/
def digit (x : Nat) (level : Nat) : Nat :=
  (toU32 x >>> (level * BITS % 32)) % WIDTH

/-- The same index computation for the (possibly negative) `level` that
`pushTail` can be called with: the JS shift count is `ToUint32(level * 5)`
reduced mod 32. -/
def digitI (x : Nat) (level : Int) : Nat :=
  (toU32 x >>> ((level * (BITS : Int)).emod 32).toNat) % WIDTH

/-- `Vector.getElem` (private recursive helper): walk the trie for `index`
from `level` down to the leaf level and return the raw slot found there (the
source's `as A` cast does nothing at runtime).  `none` models the crash of a
JS `undefined` dereference on a malformed trie; on well-formed tries it never
occurs (proved below). -/
def getElem : Node α → Nat → Nat → Option (Child α)
  | arr, index, 0 => arr[digit index 0]?
  | arr, index, (level + 1) =>
      match arr[digit index (level + 1)]? with
      | some (Child.sub n) => getElem n index level
      | _ => none

/-- `Vector.updateElem` (private recursive helper): path-copying update of the
trie.  At the leaf level the write index `index & MASK` is always below the
leaf's length 32 on well-formed tries, so `List.set` models the JS array
write; `none` models the `TypeError` JS raises when the path dereferences a
missing or value-typed child. -/
def updateElem : Node α → Nat → α → Nat → Option (Node α)
  | arr, index, elem, 0 => some (arr.set (digit index 0) (Child.val elem))
  | arr, index, elem, (level + 1) =>
      match arr[digit index (level + 1)]? with
      | some (Child.sub n) =>
          (updateElem n index elem level).map
            (fun n2 => arr.set (digit index (level + 1)) (Child.sub n2))
      | _ => none

/-- The trie-based `Vector<A>`: root node, tail buffer, trie depth, and
element count (`_size` in the source). -/
structure Vector (α : Type) where
  root : Node α
  tail : List α
  depth : Nat
  size : Nat

/-- `Vector.apply(index)`.  `none` models the thrown `Index out of bounds`
error (and, only on malformed vectors, a crashing trie walk or a tail read of
`undefined`; well-formed vectors never reach those, as proved below).  The
source's `tailOffset` local, `this._size - this.tail.length`, is inlined. -/
def apply (v : Vector α) (i : Int) : Option α :=
  if i < 0 ∨ (v.size : Int) ≤ i then none
  else if (v.size : Int) - v.tail.length ≤ i then
    v.tail[(i - ((v.size : Int) - v.tail.length)).toNat]?
  else
    match getElem v.root i.toNat v.depth with
    | some (Child.val a) => some a
    | _ => none

/-- Result type of `Vector.get`: the library `Option` with its `Some`/`None`
variants, plus `thrown` for an error propagating out of the call (through
`apply`).  The `Some` used by `get` is the Option module's constructor
function (src `Option.ts`), which returns `None` for a `null`/`undefined`
argument; the throwing `SomeImpl` class constructor is unreachable through
it, so `Some(...)` itself never raises. -/
inductive JSOpt (α : Type) where
  | noneV : JSOpt α
  | someV : α → JSOpt α
  | thrown : JSOpt α
deriving DecidableEq

/-- `Vector.get(index)`: `None` when the index is out of range, otherwise
`Some(this.apply(index))`, where `Some` is the Option module's constructor
function: it returns `None` when its argument is `null`/`undefined` and a
present value otherwise.  `isNull` models the JS test
`value === null || value === undefined` on the element domain `α`; a throw
inside `apply` surfaces as `thrown`. -/
def get (isNull : α → Bool) (v : Vector α) (i : Int) : JSOpt α :=
  if i < 0 ∨ (v.size : Int) ≤ i then JSOpt.noneV
  else
    match apply v i with
    | some a => if isNull a then JSOpt.noneV else JSOpt.someV a
    | none => JSOpt.thrown

/-- `Vector.updated(index, elem)`: returns the receiver unchanged when the
index is out of range; otherwise copy-on-write in the tail or along the trie
path.  `none` models a crash inside the trie walk (never happens on
well-formed vectors, proved below). -/
def updated (v : Vector α) (i : Int) (elem : α) : Option (Vector α) :=
  if i < 0 ∨ (v.size : Int) ≤ i then some v
  else if (v.size : Int) - v.tail.length ≤ i then
    some ⟨v.root, v.tail.set (i - ((v.size : Int) - v.tail.length)).toNat elem,
          v.depth, v.size⟩
  else
    (updateElem v.root i.toNat elem v.depth).map
      (fun r => ⟨r, v.tail, v.depth, v.size⟩)

/-- JS `newArray[subIndex] = c` on a copy of a children array: an in-range
write updates the slot, a write one past the end appends.  A write further out
would create a sparse array whose holes crash every later walk; it is modelled
as `none` (no call site our theorems touch ever performs one). -/
def jsSet (arr : Node α) (i : Nat) (c : Child α) : Option (Node α) :=
  if i < arr.length then some (arr.set i c)
  else if i = arr.length then some (arr ++ [c])
  else none

/-- `Vector.pushTail` (private recursive helper): insert a full former tail,
wrapped as a leaf node, at the slot for `index`.  The recursion replaces
`level` by `level - 1` and stops only at `level == 1`, so a call with
`level ≤ 0` descends forever; the explicit `fuel` makes the embedding total,
and a result of `none` for every fuel value means the JS call overflows the
stack.  An in-range child that is a stored value rather than a sub-node would
make JS crash on the `.array` access of the recursive call (`none`). -/
def pushTail : Nat → Node α → Nat → Node α → Int → Option (Node α)
  | 0, _, _, _, _ => none
  | (fuel + 1), arr, index, tailNode, level =>
      if level = 1 then jsSet arr (digitI index level) (Child.sub tailNode)
      else
        match
          (if digitI index level < arr.length then
            match arr[digitI index level]? with
            | some (Child.sub n) => some n
            | _ => none
          else some ([] : Node α)) with
        | some child =>
            (pushTail fuel child index tailNode (level - 1)).bind
              (fun r => jsSet arr (digitI index level) (Child.sub r))
        | none => none

/-- `Vector.appended(elem)`: grow the tail if it has room; otherwise flush the
full tail into the trie via `pushTail`, growing the trie by one level first
when `(tailIndex >>> (BITS * depth)) > 0`.  On any vector satisfying the data
model, a full tail forces `size ≥ 32`, so the natural subtraction
`size - WIDTH` agrees with JS.  `none` = the `pushTail` stack overflow. -/
def appended (fuel : Nat) (v : Vector α) (elem : α) : Option (Vector α) :=
  if v.tail.length < WIDTH then
    some ⟨v.root, v.tail ++ [elem], v.depth, v.size + 1⟩
  else
    let tailIndex := v.size - WIDTH
    let grow := 0 < toU32 tailIndex >>> (BITS * v.depth % 32)
    let newRoot := if grow then [Child.sub v.root] else v.root
    let newDepth := if grow then v.depth + 1 else v.depth
    (pushTail fuel newRoot tailIndex (v.tail.map Child.val) (newDepth : Int)).map
      (fun r => ⟨r, [elem], newDepth, v.size + 1⟩)

/-- `Vector.empty()`. -/
def empty : Vector α := ⟨[], [], 0, 0⟩

/-- `Vector.of(...elements)`: a tail-only vector for at most `WIDTH` elements,
otherwise built by repeated `appended` from `empty`. -/
def of (fuel : Nat) (elements : List α) : Option (Vector α) :=
  if elements.length = 0 then some empty
  else if elements.length ≤ WIDTH then
    some ⟨[], elements, 0, elements.length⟩
  else
    elements.foldl (fun acc e => acc.bind (fun v => appended fuel v e)) (some empty)

/-- `Vector.from(array)`; named `fromList` because `from` is a Lean keyword.
The source immediately delegates to `of`. -/
def fromList (fuel : Nat) (array : List α) : Option (Vector α) := of fuel array

/-- `Vector.appendAll(that)`: appends every element of `that` in index order
via `apply`/`appended`. -/
def appendAll (fuel : Nat) (v that : Vector α) : Option (Vector α) :=
  if that.size = 0 then some v
  else if v.size = 0 then some that
  else
    (List.range that.size).foldl
      (fun acc i => acc.bind (fun r => (apply that (i : Int)).bind (appended fuel r)))
      (some v)

/-- `Vector.removeFirst` (private recursive helper): drop the first stored
value by shifting the leftmost leaf (`shift()` = `List.tail`) along the
level-0 path.  `none` models the crash on a missing or value-typed first
child. -/
def removeFirst : Node α → Nat → Option (Node α)
  | arr, 0 => some arr.tail
  | arr, (level + 1) =>
      match arr[0]? with
      | some (Child.sub n) =>
          (removeFirst n level).map (fun r => arr.set 0 (Child.sub r))
      | _ => none

/-- `Vector.prepended(elem)`.  The last branch mirrors the source exactly: it
computes `first = this.apply(0)` (and sequences its possible throw), removes
the first element from the trie, and returns the new vector with
`[elem, ...this.tail]` as tail — the computed `first` is never used. -/
def prepended (fuel : Nat) (v : Vector α) (elem : α) : Option (Vector α) :=
  if v.size = 0 then of fuel [elem]
  else if v.tail.length = WIDTH then
    (of fuel [elem]).bind (fun ve => appendAll fuel ve v)
  else if (v.size : Int) - v.tail.length = 0 then
    some ⟨v.root, elem :: v.tail, v.depth, v.size + 1⟩
  else
    (apply v 0).bind (fun _first =>
      (removeFirst v.root v.depth).map
        (fun r => ⟨r, elem :: v.tail, v.depth, v.size + 1⟩))

/-- `Vector.toArray()`: reads index 0, 1, … via `apply`; a throw inside any
`apply` call propagates. -/
def toArray (v : Vector α) : Option (List α) :=
  (List.range v.size).mapM (fun i => apply v (i : Int))

/-- `Vector.isEmpty()`. -/
def isEmpty (v : Vector α) : Bool := v.size == 0

mutual

/-- Number of stored values under one child slot (specification-side counting
function used to state the trie-content invariant). -/
def childCount : Child α → Nat
  | Child.val _ => 1
  | Child.sub n => nodeCount n

/-- Number of stored values in a trie node. -/
def nodeCount : Node α → Nat
  | [] => 0
  | c :: cs => childCount c + nodeCount cs

end

namespace ArrayVector

/-- The array-backed `Vector<A>` of `src/vector/Vector.ts`: just a private
`data: A[]`. -/
structure AVector (α : Type) where
  data : List α

/-- Array-backed `Vector.from(array)` (constructor copies the array). -/
def fromList (array : List α) : AVector α := ⟨array⟩

/-- Array-backed `Vector.of(...elements)`. -/
def of (elements : List α) : AVector α := ⟨elements⟩

/-- Array-backed `Vector.empty()`. -/
def empty : AVector α := ⟨[]⟩

/-- Array-backed `Vector.size()`. -/
def size (v : AVector α) : Nat := v.data.length

/-- Array-backed `Vector.isEmpty()`. -/
def isEmpty (v : AVector α) : Bool := v.data.length == 0

/-- Array-backed `Vector.apply(index)`; `none` models the thrown error. -/
def apply (v : AVector α) (i : Int) : Option α :=
  if i < 0 ∨ (v.data.length : Int) ≤ i then none else v.data[i.toNat]?

/-- Array-backed `Vector.get(index)`: uses the same `Some` constructor
function, which maps `null`/`undefined` values to `None`. -/
def get (isNull : α → Bool) (v : AVector α) (i : Int) : JSOpt α :=
  if i < 0 ∨ (v.data.length : Int) ≤ i then JSOpt.noneV
  else
    match v.data[i.toNat]? with
    | some a => if isNull a then JSOpt.noneV else JSOpt.someV a
    | none => JSOpt.thrown

/-- Array-backed `Vector.updated(index, elem)`. -/
def updated (v : AVector α) (i : Int) (elem : α) : AVector α :=
  if i < 0 ∨ (v.data.length : Int) ≤ i then v
  else ⟨v.data.set i.toNat elem⟩

/-- Array-backed `Vector.appended(elem)`. -/
def appended (v : AVector α) (elem : α) : AVector α := ⟨v.data ++ [elem]⟩

/-- Array-backed `Vector.prepended(elem)`. -/
def prepended (v : AVector α) (elem : α) : AVector α := ⟨elem :: v.data⟩

/-- Array-backed `Vector.appendAll(that)`. -/
def appendAll (v that : AVector α) : AVector α := ⟨v.data ++ that.data⟩

/-- Array-backed `Vector.map(f)`. -/
def map {β : Type} (v : AVector α) (f : α → β) : AVector β := ⟨v.data.map f⟩

/-- Array-backed `Vector.filter(p)`. -/
def filter (v : AVector α) (p : α → Bool) : AVector α := ⟨v.data.filter p⟩

/-- Array-backed `Vector.toArray()`. -/
def toArray (v : AVector α) : List α := v.data

end ArrayVector

end Scats

namespace Scats

variable {α : Type}

/-- Well-formedness of a level-`L` subtree holding exactly `m` stored values:
leaves are full 32-value nodes (tails are flushed only when full); an inner
node's children are sub-nodes, all of them full subtrees except possibly the
last, which is non-empty.  This is the dense left-packed shape the spec's data
model describes. -/
def wfNode : Nat → Nat → Node α → Bool
  | 0, m, arr =>
      m == 32 && arr.length == 32 &&
      arr.all (fun c => match c with | Child.val _ => true | _ => false)
  | (L + 1), m, arr =>
      decide (0 < arr.length) && decide (arr.length ≤ 32) &&
      decide ((arr.length - 1) * 32 ^ (L + 1) < m) &&
      decide (m ≤ arr.length * 32 ^ (L + 1)) &&
      arr.dropLast.all
        (fun c => match c with
          | Child.sub n => wfNode L (32 ^ (L + 1)) n
          | _ => false) &&
      (match arr.getLast? with
       | some (Child.sub n) => wfNode L (m - (arr.length - 1) * 32 ^ (L + 1)) n
       | _ => false)

/-- Data-model invariant for trie vectors (spec section 3): a tail of at most
32 elements, `size` = trie element count + tail length with the trie in the
dense full-leaf shape, and magnitudes small enough (`size < 2 ^ 31`,
`depth ≤ 6`) that ECMAScript's 32-bit index arithmetic is exact. -/
def VecWF (v : Vector α) : Prop :=
  v.tail.length ≤ 32 ∧ v.tail.length ≤ v.size ∧ v.size < 2 ^ 31 ∧
  v.depth ≤ 6 ∧
  ((v.size - v.tail.length = 0 ∧ v.root.length = 0) ∨
    wfNode v.depth (v.size - v.tail.length) v.root = true)

instance (v : Vector α) : Decidable (VecWF v) := by
  unfold VecWF
  infer_instance

/-- The list `[1, …, 32]`. -/
def oneTo32 : List Nat := (List.range 32).map (· + 1)

/-- The list `[1, …, 33]`. -/
def oneTo33 : List Nat := (List.range 33).map (· + 1)

/-- The state `Vector.of(1..32)` produces: empty trie, full tail, depth 0. -/
def vOf32 : Vector Nat := ⟨[], oneTo32, 0, 32⟩

/-- A full leaf node holding the values `1..32`. -/
def leaf32 : Node Nat := (List.range 32).map (fun k => Child.val (k + 1))

/-- A well-formed 33-element vector: one full leaf `1..32` under a depth-1
root, tail `[33]` — the state the spec's concrete append scenario describes
(and the state a correct first tail flush would produce). -/
def v33 : Vector Nat := ⟨[Child.sub leaf32], [33], 1, 33⟩

/-- The state `Vector.of(1, 2, 3)` produces. -/
def v123 : Vector Nat := ⟨[], [1, 2, 3], 0, 3⟩

/-- A well-formed one-element vector whose single element is the JS `null`
value, modelled as `Option.none` in the element domain `Option Nat`. -/
def vNull : Vector (Option Nat) := ⟨[], [none], 0, 1⟩

lemma digit_eq {x L : Nat} (hx : x < 2 ^ 31) (hL : L ≤ 6) :
    digit x L = x / 32 ^ L % 32 := by
  have h1 : toU32 x = x := Nat.mod_eq_of_lt (lt_trans hx (by norm_num))
  have h2 : L * BITS % 32 = L * 5 := by
    have h3 : L * 5 < 32 := by omega
    simp only [BITS]
    exact Nat.mod_eq_of_lt h3
  have h4 : (2 : Nat) ^ (L * 5) = 32 ^ L := by
    rw [Nat.mul_comm, Nat.pow_mul]
  rw [digit, h1, h2, Nat.shiftRight_eq_div_pow, h4, WIDTH]

lemma wfNode_zero {m : Nat} {arr : Node α} (h : wfNode 0 m arr = true) :
    m = 32 ∧ arr.length = 32 ∧ ∀ c ∈ arr, ∃ a, c = Child.val a := by
  simp only [wfNode, Bool.and_eq_true, beq_iff_eq, List.all_eq_true] at h
  refine ⟨h.1.1, h.1.2, fun c hc => ?_⟩
  have h2 := h.2 c hc
  cases c with
  | val a => exact ⟨a, rfl⟩
  | sub n => simp at h2

lemma wfNode_succ {L m : Nat} {arr : Node α} (h : wfNode (L + 1) m arr = true) :
    0 < arr.length ∧ arr.length ≤ 32 ∧
    (arr.length - 1) * 32 ^ (L + 1) < m ∧ m ≤ arr.length * 32 ^ (L + 1) ∧
    (∀ c ∈ arr.dropLast, ∃ n, c = Child.sub n ∧ wfNode L (32 ^ (L + 1)) n = true) ∧
    (∃ n, arr.getLast? = some (Child.sub n) ∧
      wfNode L (m - (arr.length - 1) * 32 ^ (L + 1)) n = true) := by
  simp only [wfNode, Bool.and_eq_true, decide_eq_true_eq, List.all_eq_true] at h
  obtain ⟨⟨⟨⟨⟨h1, h2⟩, h3⟩, h4⟩, h5⟩, h6⟩ := h
  refine ⟨h1, h2, h3, h4, fun c hc => ?_, ?_⟩
  · have h7 := h5 c hc
    cases c with
    | val a => simp at h7
    | sub n => exact ⟨n, rfl, h7⟩
  · rcases hlast : arr.getLast? with _ | c
    · rw [hlast] at h6; simp at h6
    · rw [hlast] at h6
      cases c with
      | val a => simp at h6
      | sub n => exact ⟨n, rfl, h6⟩

lemma wf_count_le {L m : Nat} {arr : Node α} (h : wfNode L m arr = true) :
    m ≤ 32 ^ (L + 1) := by
  cases L with
  | zero => rw [(wfNode_zero h).1]; norm_num
  | succ L =>
      obtain ⟨-, hle, -, hhigh, -, -⟩ := wfNode_succ h
      calc m ≤ arr.length * 32 ^ (L + 1) := hhigh
        _ ≤ 32 * 32 ^ (L + 1) := Nat.mul_le_mul_right _ hle
        _ = 32 ^ (L + 1 + 1) := by ring

lemma mod_div_digit (i W : Nat) : i % (W * 32) / W = i / W % 32 :=
  Nat.mod_mul_right_div_self i W 32

lemma mod_mod_low (i W : Nat) : i % (W * 32) % W = i % W :=
  Nat.mod_mod_of_dvd i ⟨32, rfl⟩

lemma mod_mul_decomp (i W : Nat) : i % (W * 32) = W * (i / W % 32) + i % W := by
  conv_lhs => rw [← Nat.div_add_mod (i % (W * 32)) W]
  rw [mod_div_digit, mod_mod_low]

lemma mod_mul_eq_iff (i j W : Nat) :
    i % (W * 32) = j % (W * 32) ↔ (i / W % 32 = j / W % 32 ∧ i % W = j % W) := by
  constructor
  · intro h
    constructor
    · rw [← mod_div_digit i W, ← mod_div_digit j W, h]
    · rw [← mod_mod_low i W, ← mod_mod_low j W, h]
  · rintro ⟨h1, h2⟩
    rw [mod_mul_decomp i W, mod_mul_decomp j W, h1, h2]

lemma wf_child {L m : Nat} {arr : Node α} (h : wfNode (L + 1) m arr = true)
    {d : Nat} (hd : d < arr.length) :
    ∃ n, arr[d]? = some (Child.sub n) ∧
      wfNode L (min (32 ^ (L + 1)) (m - d * 32 ^ (L + 1))) n = true := by
  obtain ⟨hpos, hle, hlow, hhigh, hfull, n0, hlast, hwl⟩ := wfNode_succ h
  rcases Nat.lt_or_ge d (arr.length - 1) with hcase | hcase
  · -- a full (non-last) child
    obtain ⟨c, hc⟩ : ∃ c, arr[d]? = some c :=
      ⟨_, List.getElem?_eq_getElem hd⟩
    have hdrop : arr.dropLast[d]? = some c := by
      rw [List.getElem?_dropLast, if_pos hcase, hc]
    obtain ⟨n, hn, hwn⟩ := hfull c (List.getElem?_mem hdrop)
    subst hn
    refine ⟨n, hc, ?_⟩
    have hmin : min (32 ^ (L + 1)) (m - d * 32 ^ (L + 1)) = 32 ^ (L + 1) := by
      have hmul : (d + 1) * 32 ^ (L + 1) ≤ (arr.length - 1) * 32 ^ (L + 1) :=
        Nat.mul_le_mul_right _ (by omega)
      have hsucc : (d + 1) * 32 ^ (L + 1) = d * 32 ^ (L + 1) + 32 ^ (L + 1) :=
        Nat.succ_mul _ _
      omega
    rw [hmin]; exact hwn
  · -- the last child
    have hd1 : d = arr.length - 1 := by omega
    have hc : arr[d]? = some (Child.sub n0) := by
      rw [← hlast, List.getLast?_eq_getElem?, hd1]
    refine ⟨n0, hc, ?_⟩
    have hmin : min (32 ^ (L + 1)) (m - d * 32 ^ (L + 1)) =
        m - (arr.length - 1) * 32 ^ (L + 1) := by
      have hlen : arr.length * 32 ^ (L + 1) =
          (arr.length - 1) * 32 ^ (L + 1) + 32 ^ (L + 1) := by
        have hs := Nat.succ_mul (arr.length - 1) (32 ^ (L + 1))
        have h2 : (arr.length - 1).succ = arr.length := by omega
        rw [h2] at hs
        exact hs
      rw [hd1]
      omega
    rw [hmin]; exact hwl

lemma getElem_wf : ∀ (L : Nat) {m : Nat} {arr : Node α} {i : Nat},
    wfNode L m arr = true → L ≤ 6 → i < 2 ^ 31 → i % 32 ^ (L + 1) < m →
    ∃ a : α, getElem arr i L = some (Child.val a) := by
  intro L
  induction L with
  | zero =>
      intro m arr i hwf _ hx hi
      obtain ⟨hm, hlen, hval⟩ := wfNode_zero hwf
      have hdig : digit i 0 = i % 32 := by
        rw [digit_eq hx (by omega)]; simp
      have hlt : i % 32 < arr.length := by rw [hlen]; exact Nat.mod_lt _ (by norm_num)
      obtain ⟨c, hc⟩ : ∃ c, arr[i % 32]? = some c := ⟨_, List.getElem?_eq_getElem hlt⟩
      obtain ⟨a, ha⟩ := hval c (List.getElem?_mem hc)
      subst ha
      exact ⟨a, by simp only [getElem, hdig, hc]⟩
  | succ L ih =>
      intro m arr i hwf hL6 hx hi
      obtain ⟨hpos, hle, hlow, hhigh, -, -⟩ := wfNode_succ hwf
      have hWpos : 0 < 32 ^ (L + 1) := Nat.pos_pow_of_pos _ (by norm_num)
      have hdig : digit i (L + 1) = i / 32 ^ (L + 1) % 32 := digit_eq hx hL6
      have hpow : (32 : Nat) ^ (L + 1 + 1) = 32 ^ (L + 1) * 32 := pow_succ 32 (L + 1)
      have him : i % (32 ^ (L + 1) * 32) < m := by rw [← hpow]; exact hi
      have hdd : i / 32 ^ (L + 1) % 32 = i % (32 ^ (L + 1) * 32) / 32 ^ (L + 1) :=
        (mod_div_digit i _).symm
      have hdlt : i / 32 ^ (L + 1) % 32 < arr.length := by
        rw [hdd]
        exact (Nat.div_lt_iff_lt_mul hWpos).mpr (lt_of_lt_of_le him hhigh)
      obtain ⟨n, hn, hwfn⟩ := wf_child hwf hdlt
      have hlow2 : i % 32 ^ (L + 1) <
          min (32 ^ (L + 1)) (m - i / 32 ^ (L + 1) % 32 * 32 ^ (L + 1)) := by
        refine lt_min (Nat.mod_lt _ hWpos) ?_
        have h1 : i % (32 ^ (L + 1) * 32) =
            32 ^ (L + 1) * (i / 32 ^ (L + 1) % 32) + i % 32 ^ (L + 1) :=
          mod_mul_decomp i _
        have h2 : 32 ^ (L + 1) * (i / 32 ^ (L + 1) % 32) =
            i / 32 ^ (L + 1) % 32 * 32 ^ (L + 1) := Nat.mul_comm _ _
        omega
      obtain ⟨a, ha⟩ := ih hwfn (by omega) hx hlow2
      refine ⟨a, ?_⟩
      simp only [getElem, hdig, hn]
      exact ha

end Scats

namespace Scats

variable {α : Type}

lemma updateElem_wf : ∀ (L : Nat) {m : Nat} {arr : Node α} {i : Nat} (x : α),
    wfNode L m arr = true → L ≤ 6 → i < 2 ^ 31 → i % 32 ^ (L + 1) < m →
    ∃ arr2, updateElem arr i x L = some arr2 ∧
      ∀ (j : Nat), j < 2 ^ 31 → j % 32 ^ (L + 1) < m →
        getElem arr2 j L =
          if j % 32 ^ (L + 1) = i % 32 ^ (L + 1) then some (Child.val x)
          else getElem arr j L := by
  intro L
  induction L with
  | zero =>
      intro m arr i x hwf _ hx hi
      obtain ⟨hm, hlen, -⟩ := wfNode_zero hwf
      have hp1 : (32 : Nat) ^ (0 + 1) = 32 := by norm_num
      have hdigi : digit i 0 = i % 32 := by rw [digit_eq hx (by omega)]; simp
      have hilt : i % 32 < arr.length := by rw [hlen]; exact Nat.mod_lt _ (by norm_num)
      refine ⟨arr.set (i % 32) (Child.val x), by simp only [updateElem, hdigi], ?_⟩
      intro j hj hjm
      have hdigj : digit j 0 = j % 32 := by rw [digit_eq hj (by omega)]; simp
      rw [hp1]
      by_cases hc : j % 32 = i % 32
      · rw [if_pos hc]
        simp only [getElem, hdigj, hc]
        exact List.getElem?_set_eq_of_lt _ hilt
      · rw [if_neg hc]
        simp only [getElem, hdigj, hdigi]
        exact List.getElem?_set_ne (fun h => hc h.symm)
  | succ L ih =>
      intro m arr i x hwf hL6 hx hi
      obtain ⟨hpos, hle, hlow, hhigh, -, -⟩ := wfNode_succ hwf
      have hWpos : 0 < 32 ^ (L + 1) := Nat.pos_pow_of_pos _ (by norm_num)
      have hpow : (32 : Nat) ^ (L + 1 + 1) = 32 ^ (L + 1) * 32 := pow_succ 32 (L + 1)
      rw [hpow] at hi
      have hdigi : digit i (L + 1) = i / 32 ^ (L + 1) % 32 := digit_eq hx hL6
      have hddi : i / 32 ^ (L + 1) % 32 = i % (32 ^ (L + 1) * 32) / 32 ^ (L + 1) :=
        (mod_div_digit i _).symm
      have hdlti : i / 32 ^ (L + 1) % 32 < arr.length := by
        rw [hddi]
        exact (Nat.div_lt_iff_lt_mul hWpos).mpr (lt_of_lt_of_le hi hhigh)
      obtain ⟨n, hn, hwfn⟩ := wf_child hwf hdlti
      have hlowi : i % 32 ^ (L + 1) <
          min (32 ^ (L + 1)) (m - i / 32 ^ (L + 1) % 32 * 32 ^ (L + 1)) := by
        refine lt_min (Nat.mod_lt _ hWpos) ?_
        have h1 : i % (32 ^ (L + 1) * 32) =
            32 ^ (L + 1) * (i / 32 ^ (L + 1) % 32) + i % 32 ^ (L + 1) :=
          mod_mul_decomp i _
        have h2 : 32 ^ (L + 1) * (i / 32 ^ (L + 1) % 32) =
            i / 32 ^ (L + 1) % 32 * 32 ^ (L + 1) := Nat.mul_comm _ _
        omega
      obtain ⟨n2, hupd, hread⟩ := ih x hwfn (by omega) hx hlowi
      refine ⟨arr.set (i / 32 ^ (L + 1) % 32) (Child.sub n2), ?_, ?_⟩
      · simp only [updateElem, hdigi, hn, hupd, Option.map_some']
      · intro j hj hjm
        rw [hpow] at hjm
        have hdigj : digit j (L + 1) = j / 32 ^ (L + 1) % 32 := digit_eq hj hL6
        rw [hpow]
        by_cases hdeq : j / 32 ^ (L + 1) % 32 = i / 32 ^ (L + 1) % 32
        · -- the read descends into the freshly written child
          have hset : (arr.set (i / 32 ^ (L + 1) % 32) (Child.sub n2))[j / 32 ^ (L + 1) % 32]? =
              some (Child.sub n2) := by
            rw [hdeq]
            exact List.getElem?_set_eq_of_lt _ hdlti
          have hlowj : j % 32 ^ (L + 1) <
              min (32 ^ (L + 1)) (m - i / 32 ^ (L + 1) % 32 * 32 ^ (L + 1)) := by
            refine lt_min (Nat.mod_lt _ hWpos) ?_
            have h1 : j % (32 ^ (L + 1) * 32) =
                32 ^ (L + 1) * (j / 32 ^ (L + 1) % 32) + j % 32 ^ (L + 1) :=
              mod_mul_decomp j _
            have h2 : 32 ^ (L + 1) * (j / 32 ^ (L + 1) % 32) =
                i / 32 ^ (L + 1) % 32 * 32 ^ (L + 1) := by
              rw [hdeq] at h1 ⊢
              exact Nat.mul_comm _ _
            omega
          have hstep : getElem (arr.set (i / 32 ^ (L + 1) % 32) (Child.sub n2)) j (L + 1) =
              getElem n2 j L := by
            simp only [getElem, hdigj, hset]
          rw [hstep, hread j hj hlowj]
          have hiff := mod_mul_eq_iff j i (32 ^ (L + 1))
          by_cases hjw : j % 32 ^ (L + 1) = i % 32 ^ (L + 1)
          · rw [if_pos hjw, if_pos (hiff.mpr ⟨hdeq, hjw⟩)]
          · rw [if_neg hjw, if_neg (fun h => hjw (hiff.mp h).2)]
            have hjn : arr[j / 32 ^ (L + 1) % 32]? = some (Child.sub n) := by
              rw [hdeq]; exact hn
            simp only [getElem, hdigj, hjn]
        · -- the read stays in an untouched sibling subtree
          have hset : (arr.set (i / 32 ^ (L + 1) % 32) (Child.sub n2))[j / 32 ^ (L + 1) % 32]? =
              arr[j / 32 ^ (L + 1) % 32]? :=
            List.getElem?_set_ne (fun h => hdeq h.symm)
          have hcond : ¬(j % (32 ^ (L + 1) * 32) = i % (32 ^ (L + 1) * 32)) :=
            fun h => hdeq ((mod_mul_eq_iff j i _).mp h).1
          rw [if_neg hcond]
          simp only [getElem, hdigj, hset]

end Scats

namespace Scats

variable {α : Type}

lemma apply_in_tail {v : Vector α} {i : Int} (h0 : 0 ≤ i) (hN : i < (v.size : Int))
    (ht : (v.size : Int) - v.tail.length ≤ i) :
    apply v i = v.tail[(i - ((v.size : Int) - v.tail.length)).toNat]? := by
  rw [apply, if_neg (by omega), if_pos ht]

lemma apply_in_trie {v : Vector α} {i : Int} (h0 : 0 ≤ i) (hN : i < (v.size : Int))
    (ht : i < (v.size : Int) - v.tail.length) :
    apply v i = match getElem v.root i.toNat v.depth with
      | some (Child.val a) => some a
      | _ => none := by
  rw [apply, if_neg (by omega), if_neg (by omega)]

lemma apply_some_of_range {v : Vector α} (hwf : VecWF v) {i : Int}
    (h0 : 0 ≤ i) (hN : i < (v.size : Int)) : ∃ a, apply v i = some a := by
  obtain ⟨ht32, htle, hsz, hdep, hroot⟩ := hwf
  by_cases ht : (v.size : Int) - v.tail.length ≤ i
  · rw [apply_in_tail h0 hN ht]
    have hlt : (i - ((v.size : Int) - v.tail.length)).toNat < v.tail.length := by omega
    exact ⟨_, List.getElem?_eq_getElem hlt⟩
  · rw [apply_in_trie h0 hN (by omega)]
    rcases hroot with ⟨hz, -⟩ | hwfN
    · omega
    · have hx : i.toNat < 2 ^ 31 := by omega
      have hcap := wf_count_le hwfN
      have hi2 : i.toNat % 32 ^ (v.depth + 1) < v.size - v.tail.length := by
        have hlt : i.toNat < v.size - v.tail.length := by omega
        rw [Nat.mod_eq_of_lt (lt_of_lt_of_le hlt hcap)]
        exact hlt
      obtain ⟨a, ha⟩ := getElem_wf v.depth hwfN hdep hx hi2
      exact ⟨a, by rw [ha]⟩


lemma apply_mk_tail (root : Node α) (t : List α) (d sz : Nat) {i : Int}
    (h0 : 0 ≤ i) (hN : i < (sz : Int)) (ht : (sz : Int) - t.length ≤ i) :
    apply ⟨root, t, d, sz⟩ i = t[(i - ((sz : Int) - t.length)).toNat]? := by
  rw [apply]
  dsimp only
  rw [if_neg (by omega), if_pos ht]

lemma apply_mk_trie (root : Node α) (t : List α) (d sz : Nat) {i : Int}
    (h0 : 0 ≤ i) (hN : i < (sz : Int)) (ht : i < (sz : Int) - t.length) :
    apply ⟨root, t, d, sz⟩ i = match getElem root i.toNat d with
      | some (Child.val a) => some a
      | _ => none := by
  rw [apply]
  dsimp only
  rw [if_neg (by omega), if_neg (by omega)]

/-- C7: on every vector satisfying the data-model invariant, `apply` raises
its out-of-range error exactly when the index is outside `[0, size)`; every
in-range index returns a stored value without raising. -/
theorem apply_fails_iff_out_of_range (v : Vector α) (i : Int) (hwf : VecWF v) :
    apply v i = none ↔ (i < 0 ∨ (v.size : Int) ≤ i) := by
  constructor
  · intro h
    by_contra hc
    push_neg at hc
    obtain ⟨a, ha⟩ := apply_some_of_range hwf hc.1 hc.2
    rw [ha] at h
    simp at h
  · intro h
    rw [apply, if_pos h]

/-- Witness for `apply_fails_iff_out_of_range` at the concrete well-formed
33-element vector `v33` and index 40. -/
theorem apply_fails_iff_out_of_range_witness :
    VecWF v33 ∧ (apply v33 40 = none ↔ ((40 : Int) < 0 ∨ (v33.size : Int) ≤ 40)) :=
  ⟨by decide, apply_fails_iff_out_of_range v33 40 (by decide)⟩

/-- C5: on every vector satisfying the data-model invariant,
`updated(i, x).apply(i) = x` and `updated(i, x).apply(j) = apply(j)` for every
other in-range index `j`. -/
theorem updated_apply_consistency (v : Vector α) (i j : Int) (x : α) (hwf : VecWF v)
    (hi0 : 0 ≤ i) (hiN : i < (v.size : Int)) (hj0 : 0 ≤ j) (hjN : j < (v.size : Int))
    (hne : j ≠ i) :
    ∃ v2, updated v i x = some v2 ∧ apply v2 i = some x ∧ apply v2 j = apply v j := by
  obtain ⟨ht32, htle, hsz, hdep, hroot⟩ := hwf
  by_cases hti : (v.size : Int) - v.tail.length ≤ i
  · -- the updated slot lies in the tail
    have hklt : (i - ((v.size : Int) - v.tail.length)).toNat < v.tail.length := by omega
    refine ⟨⟨v.root, v.tail.set (i - ((v.size : Int) - v.tail.length)).toNat x,
              v.depth, v.size⟩, ?_, ?_, ?_⟩
    · rw [updated, if_neg (by omega), if_pos hti]
    · rw [apply_mk_tail v.root (v.tail.set (i - ((v.size : Int) - v.tail.length)).toNat x)
            v.depth v.size hi0 hiN (by rw [List.length_set]; exact hti)]
      rw [List.length_set]
      exact List.getElem?_set_eq_of_lt _ hklt
    · by_cases htj : (v.size : Int) - v.tail.length ≤ j
      · rw [apply_mk_tail v.root (v.tail.set (i - ((v.size : Int) - v.tail.length)).toNat x)
              v.depth v.size hj0 hjN (by rw [List.length_set]; exact htj),
            apply_in_tail hj0 hjN htj, List.length_set]
        refine List.getElem?_set_ne (fun h => ?_)
        omega
      · rw [apply_mk_trie v.root (v.tail.set (i - ((v.size : Int) - v.tail.length)).toNat x)
              v.depth v.size hj0 hjN (by rw [List.length_set]; omega),
            apply_in_trie hj0 hjN (by omega)]
  · -- the updated slot lies in the trie
    have hti2 : i < (v.size : Int) - v.tail.length := by omega
    rcases hroot with ⟨hz, -⟩ | hwfN
    · omega
    · have hx : i.toNat < 2 ^ 31 := by omega
      have hcap := wf_count_le hwfN
      have hi2 : i.toNat % 32 ^ (v.depth + 1) < v.size - v.tail.length := by
        have hlt : i.toNat < v.size - v.tail.length := by omega
        rw [Nat.mod_eq_of_lt (lt_of_lt_of_le hlt hcap)]
        exact hlt
      obtain ⟨root2, hupd, hread⟩ := updateElem_wf v.depth x hwfN hdep hx hi2
      refine ⟨⟨root2, v.tail, v.depth, v.size⟩, ?_, ?_, ?_⟩
      · rw [updated, if_neg (by omega), if_neg (by omega), hupd, Option.map_some']
      · rw [apply_mk_trie root2 v.tail v.depth v.size hi0 hiN hti2,
            hread i.toNat hx hi2, if_pos rfl]
      · by_cases htj : (v.size : Int) - v.tail.length ≤ j
        · rw [apply_mk_tail root2 v.tail v.depth v.size hj0 hjN htj,
              apply_in_tail hj0 hjN htj]
        · have hjx : j.toNat < 2 ^ 31 := by omega
          have hj2 : j.toNat % 32 ^ (v.depth + 1) < v.size - v.tail.length := by
            have hlt : j.toNat < v.size - v.tail.length := by omega
            rw [Nat.mod_eq_of_lt (lt_of_lt_of_le hlt hcap)]
            exact hlt
          have hcond : ¬(j.toNat % 32 ^ (v.depth + 1) = i.toNat % 32 ^ (v.depth + 1)) := by
            have hlt : j.toNat < v.size - v.tail.length := by omega
            have hlt2 : i.toNat < v.size - v.tail.length := by omega
            rw [Nat.mod_eq_of_lt (lt_of_lt_of_le hlt hcap),
                Nat.mod_eq_of_lt (lt_of_lt_of_le hlt2 hcap)]
            omega
          rw [apply_mk_trie root2 v.tail v.depth v.size hj0 hjN (by omega),
              apply_in_trie hj0 hjN (by omega), hread j.toNat hjx hj2, if_neg hcond]

/-- Witness for `updated_apply_consistency`: the well-formed 33-element vector
`v33`, updating trie index 5 and reading back indices 5 and 32. -/
theorem updated_apply_consistency_witness :
    VecWF v33 ∧
      (∃ v2, updated v33 5 99 = some v2 ∧ apply v2 5 = some 99 ∧
        apply v2 32 = apply v33 32) :=
  ⟨by decide,
    updated_apply_consistency v33 5 32 99 (by decide) (by decide) (by decide)
      (by decide) (by decide) (by decide)⟩

end Scats

namespace Scats

variable {α : Type}

/-- C9: `updated` with an out-of-range index returns the receiver unchanged,
raising nothing. -/
theorem updated_out_of_range_noop (v : Vector α) (i : Int) (x : α)
    (h : i < 0 ∨ (v.size : Int) ≤ i) : updated v i x = some v := by
  rw [updated, if_pos h]

/-- Witness for `updated_out_of_range_noop`: `Vector.of(1,2,3).updated(10,99)`
is the receiver itself, whose `toArray()` is `[1,2,3]`. -/
theorem updated_out_of_range_noop_witness :
    (((10 : Int) < 0 ∨ (v123.size : Int) ≤ 10) ∧ updated v123 10 99 = some v123) ∧
      toArray v123 = some [1, 2, 3] :=
  ⟨⟨by decide, updated_out_of_range_noop v123 10 99 (by decide)⟩, by decide⟩

/-- C8 (amended): `get` never raises; it returns the absent value exactly
when the index is out of range or the stored element is `null`/`undefined`
(the `Some` constructor function maps nullish values to `None`), and on an
in-range index whose element is not nullish it returns the present value
containing `apply(i)`. -/
theorem get_absent_iff (isNull : α → Bool) (v : Vector α) (hwf : VecWF v) (i : Int) :
    get isNull v i ≠ JSOpt.thrown ∧
    (get isNull v i = JSOpt.noneV ↔
      (i < 0 ∨ (v.size : Int) ≤ i ∨ ∃ a, apply v i = some a ∧ isNull a = true)) ∧
    (∀ a : α, apply v i = some a → isNull a = false →
      get isNull v i = JSOpt.someV a) := by
  have hsome : ∀ a : α, apply v i = some a → ¬(i < 0 ∨ (v.size : Int) ≤ i) := by
    intro a ha hg
    rw [apply, if_pos hg] at ha
    simp at ha
  have hpres : ∀ a : α, apply v i = some a → isNull a = false →
      get isNull v i = JSOpt.someV a := by
    intro a ha hn
    rw [get, if_neg (hsome a ha), ha]
    show (if isNull a then JSOpt.noneV else JSOpt.someV a) = JSOpt.someV a
    rw [hn]
    rfl
  have habs : ∀ a : α, apply v i = some a → isNull a = true →
      get isNull v i = JSOpt.noneV := by
    intro a ha hn
    rw [get, if_neg (hsome a ha), ha]
    show (if isNull a then JSOpt.noneV else JSOpt.someV a) = JSOpt.noneV
    rw [hn]
    rfl
  refine ⟨?_, ⟨?_, ?_⟩, hpres⟩
  · -- get never evaluates to a thrown error
    by_cases hg : i < 0 ∨ (v.size : Int) ≤ i
    · rw [get, if_pos hg]
      simp
    · push_neg at hg
      obtain ⟨a, ha⟩ := apply_some_of_range hwf hg.1 hg.2
      cases hna : isNull a with
      | false => rw [hpres a ha hna]; simp
      | true => rw [habs a ha hna]; simp
  · -- absent implies out of range or a nullish element
    intro h
    by_cases hg : i < 0 ∨ (v.size : Int) ≤ i
    · rcases hg with hg | hg
      · exact Or.inl hg
      · exact Or.inr (Or.inl hg)
    · push_neg at hg
      obtain ⟨a, ha⟩ := apply_some_of_range hwf hg.1 hg.2
      cases hna : isNull a with
      | true => exact Or.inr (Or.inr ⟨a, ha, hna⟩)
      | false =>
          rw [hpres a ha hna] at h
          simp at h
  · -- out of range or a nullish element implies absent
    intro h
    rcases h with hg | hg | ⟨a, ha, hn⟩
    · rw [get, if_pos (Or.inl hg)]
    · rw [get, if_pos (Or.inr hg)]
    · exact habs a ha hn

/-- Witness for `get_absent_iff`: the well-formed 33-element vector `v33`
(whose `Nat` elements are never nullish) at index 1. -/
theorem get_absent_iff_witness :
    VecWF v33 ∧
      (get (fun _ => false) v33 1 ≠ JSOpt.thrown ∧
       (get (fun _ => false) v33 1 = JSOpt.noneV ↔
         ((1 : Int) < 0 ∨ (v33.size : Int) ≤ 1 ∨
           ∃ a, apply v33 1 = some a ∧ (fun _ : Nat => false) a = true)) ∧
       (∀ a : Nat, apply v33 1 = some a → (fun _ : Nat => false) a = false →
         get (fun _ => false) v33 1 = JSOpt.someV a)) :=
  ⟨by decide, get_absent_iff (fun _ => false) v33 (by decide) 1⟩

/-- C8 counterexample: on the well-formed vector whose single element is the
JS `null` value, index 0 is in range and `apply(0)` returns the element, yet
`get(0)` is the absent value — the `Some` constructor function converts
nullish values to `None` — contradicting the claim that `get` returns the
absent value exactly when the index is out of range, and otherwise a present
value containing `apply(i)`.  (The no-raise part of the claim does hold: the
`SomeImpl` constructor throw is unreachable through the `Some` function.) -/
theorem get_null_in_range_absent :
    VecWF vNull ∧ ((0 : Int) < (vNull.size : Int)) ∧ apply vNull 0 = some none ∧
      get (fun a => a.isNone) vNull 0 = JSOpt.noneV :=
  ⟨by decide, by decide, by decide, by decide⟩

lemma pushTail_diverges_nonpos :
    ∀ (fuel : Nat) (level : Int), level ≤ 0 →
      ∀ (arr : Node α) (index : Nat) (tailNode : Node α),
        pushTail fuel arr index tailNode level = none := by
  intro fuel
  induction fuel with
  | zero => intro level _ arr index tailNode; rfl
  | succ fuel ih =>
      intro level hlev arr index tailNode
      rw [pushTail, if_neg (by omega)]
      rcases hch : (if digitI index level < arr.length then
          match arr[digitI index level]? with
          | some (Child.sub n) => some n
          | _ => none
        else some ([] : Node α)) with _ | child
      · rw [hch]
      · rw [hch]
        show (pushTail fuel child index tailNode (level - 1)).bind
            (fun r => jsSet arr (digitI index level) (Child.sub r)) = none
        rw [ih (level - 1) (by omega) child index tailNode]
        rfl

lemma appended_full32_none (fuel : Nat) (t : List α) (ht : t.length = 32) (x : α) :
    appended fuel ⟨[], t, 0, 32⟩ x = none := by
  rw [appended]
  dsimp only
  rw [if_neg (by show ¬(t.length < 32); omega)]
  have hg : ¬(0 < toU32 (32 - WIDTH) >>> (BITS * 0 % 32)) := by decide
  rw [if_neg hg, if_neg hg,
      pushTail_diverges_nonpos fuel ((0 : Nat) : Int) (by simp) [] (32 - WIDTH)
        (t.map Child.val)]
  rfl

lemma appended_vOf32_none (fuel : Nat) (x : Nat) : appended fuel vOf32 x = none :=
  appended_full32_none fuel oneTo32 (by decide) x

/-- C2 (refuted): `appended` does not terminate on the full-tail vector
produced by `Vector.of(1..32)` — the flush calls `pushTail` at level 0, whose
recursion never reaches its `level == 1` base case, for every stack bound. -/
theorem appended_full_tail_diverges (fuel : Nat) (x : Nat) :
    appended fuel vOf32 x = none :=
  appended_vOf32_none fuel x

/-- C1 (refuted): `Vector.of(1..32)` is the expected full-tail, depth-0,
size-32 state, but `.appended(33)` never returns a size-33 vector: the tail
flush diverges inside `pushTail` for every stack bound. -/
theorem of32_appended_overflows (fuel : Nat) :
    of fuel oneTo32 = some vOf32 ∧
      (of fuel oneTo32).bind (fun v => appended fuel v 33) = none := by
  refine ⟨rfl, ?_⟩
  have h : (of fuel oneTo32).bind (fun v => appended fuel v 33) =
      appended fuel vOf32 33 := rfl
  rw [h, appended_vOf32_none]

/-- C3 (refuted): on the well-formed 33-element vector `v33` (elements 1..33),
`prepended(0)` returns a vector whose `apply(0)` is `2`: `removeFirst` deletes
the old first element `1` from the trie, and the computed `first` is never
reinserted, so neither `apply(0) = 0` nor `apply(i+1) = apply(i)` holds. -/
theorem prepended_drops_first_element (fuel : Nat) :
    (prepended fuel v33 0).map (fun v => v.size) = some 34 ∧
    (prepended fuel v33 0).bind (fun v => apply v 0) = some 2 ∧
    (prepended fuel v33 0).bind (fun v => apply v 1) = some 3 ∧
    apply v33 0 = some 1 ∧ apply v33 1 = some 2 :=
  ⟨rfl, rfl, rfl, rfl, rfl⟩

/-- C4 (refuted): after `prepended(7)` on the well-formed vector `v33`, the
returned vector has `size - tail.length = 32` while its trie stores only 31
elements — the claimed content invariant is broken by `prepended`. -/
theorem prepended_breaks_trie_count (fuel : Nat) :
    VecWF v33 ∧
      (prepended fuel v33 7).map
          (fun v => (nodeCount v.root, v.size - v.tail.length)) = some (31, 32) :=
  ⟨by decide, rfl⟩

end Scats

namespace Scats

variable {α : Type}

lemma foldl_appended_fill :
    ∀ (l t : List α) (fuel : Nat), t.length + l.length ≤ 32 →
      l.foldl (fun acc e => acc.bind (fun v => appended fuel v e))
          (some ⟨[], t, 0, t.length⟩) =
        some ⟨[], t ++ l, 0, t.length + l.length⟩ := by
  intro l
  induction l with
  | nil => intro t fuel h; simp
  | cons e l ih =>
      intro t fuel h
      have hlt : t.length < WIDTH := by
        show t.length < 32
        simp only [List.length_cons] at h
        omega
      have hstep : (some (⟨[], t, 0, t.length⟩ : Vector α)).bind
          (fun v => appended fuel v e) =
          some ⟨[], t ++ [e], 0, (t ++ [e]).length⟩ := by
        show appended fuel ⟨[], t, 0, t.length⟩ e = _
        rw [appended]
        dsimp only
        rw [if_pos hlt]
        simp
      rw [List.foldl_cons, hstep,
          ih (t ++ [e]) fuel (by simp only [List.length_append, List.length_cons,
            List.length_nil] at h ⊢; omega)]
      simp only [List.append_assoc, List.singleton_append, List.length_append,
        List.length_cons, List.length_nil, Option.some.injEq, Vector.mk.injEq,
        true_and]
      omega

lemma of_oneTo33_none (fuel : Nat) : of fuel oneTo33 = none := by
  have hsplit : oneTo33 = oneTo32 ++ [33] := by decide
  have h1 : of fuel oneTo33 =
      oneTo33.foldl (fun acc e => acc.bind (fun v => appended fuel v e))
        (some empty) := by
    rw [of, if_neg (by decide), if_neg (by decide)]
  rw [h1, hsplit, List.foldl_append]
  have h2 : oneTo32.foldl (fun acc e => acc.bind (fun v => appended fuel v e))
      (some empty) = some ⟨[], oneTo32, 0, 32⟩ := by
    have h3 := foldl_appended_fill oneTo32 [] fuel (by decide)
    simp only [List.nil_append, List.length_nil, Nat.zero_add] at h3
    exact h3
  rw [h2, List.foldl_cons, List.foldl_nil]
  exact appended_vOf32_none fuel 33

lemma foldl_appended_none (fuel : Nat) : ∀ (l : List α),
    l.foldl (fun acc e => acc.bind (fun v => appended fuel v e)) none = none := by
  intro l
  induction l with
  | nil => rfl
  | cons e l ih =>
      rw [List.foldl_cons]
      exact ih

lemma foldl_fill_from_empty (fuel : Nat) (t : List α) (ht : t.length ≤ 32) :
    t.foldl (fun acc e => acc.bind (fun v => appended fuel v e)) (some empty) =
      some ⟨[], t, 0, t.length⟩ := by
  have h3 := foldl_appended_fill t [] fuel
    (by simp only [List.length_nil, Nat.zero_add]; exact ht)
  simp only [List.nil_append, List.length_nil, Nat.zero_add] at h3
  exact h3

lemma of_gt32_none (fuel : Nat) (l : List α) (h : 32 < l.length) :
    of fuel l = none := by
  have h1 : of fuel l =
      l.foldl (fun acc e => acc.bind (fun v => appended fuel v e)) (some empty) := by
    rw [of, if_neg (by omega), if_neg (by show ¬(l.length ≤ 32); omega)]
  have hsplit : l.take 32 ++ l.drop 32 = l := List.take_append_drop 32 l
  have htk : (l.take 32).length = 32 := by
    simp only [List.length_take]
    omega
  rcases hdrop : l.drop 32 with _ | ⟨e, rest⟩
  · have hlen : (l.drop 32).length = 0 := by rw [hdrop]; rfl
    rw [List.length_drop] at hlen
    omega
  · rw [h1, ← hsplit, hdrop, List.foldl_append,
        foldl_fill_from_empty fuel (l.take 32) (by omega), List.foldl_cons]
    have hstep : (some (⟨[], l.take 32, 0, (l.take 32).length⟩ : Vector α)).bind
        (fun v => appended fuel v e) = none := by
      show appended fuel ⟨[], l.take 32, 0, (l.take 32).length⟩ e = none
      rw [htk]
      exact appended_full32_none fuel (l.take 32) htk e
    rw [hstep]
    exact foldl_appended_none fuel rest

/-- C6 (refuted for every length above 32): `from` does round-trip arrays of
at most 32 elements, but `from(arr)` never returns for any array of more than
32 elements — including the claimed lengths 33, 1024 and 1025 — because the
flush of the 33rd element diverges in `pushTail` for every stack bound. -/
theorem fromList_roundtrip_breaks_at_33 (fuel : Nat) :
    fromList fuel oneTo33 = none ∧
      (fromList fuel oneTo32).bind toArray = some oneTo32 ∧
      ∀ (l : List Nat), 32 < l.length → fromList fuel l = none :=
  ⟨of_oneTo33_none fuel, rfl, fun l h => of_gt32_none fuel l h⟩

/-- Witness for `fromList_roundtrip_breaks_at_33`: instantiates its universal
part at the concrete array `[1..33]`. -/
theorem fromList_roundtrip_breaks_at_33_witness :
    32 < oneTo33.length ∧ fromList 5 oneTo33 = none :=
  ⟨by decide, (fromList_roundtrip_breaks_at_33 5).2.2 oneTo33 (by decide)⟩

/-- C10 (refuted): the implementations are not observationally equivalent:
on the operation sequence `from([1..33])`, the array-backed Vector returns a
size-33 vector with the expected contents while the trie-based `from` never
returns at all. -/
theorem trie_array_not_equivalent (fuel : Nat) :
    fromList fuel oneTo33 = none ∧
      ArrayVector.size (ArrayVector.fromList oneTo33) = 33 ∧
      ArrayVector.toArray (ArrayVector.fromList oneTo33) = oneTo33 :=
  ⟨of_oneTo33_none fuel, rfl, rfl⟩

end Scats
